import Mathlib

/-!
# Verification of the text steganography codec

Shallow embedding of `shared/steganography/text_steganography.py` and
`shared/steganography/ai_analyzer.py`.

Modelling conventions:
* Python `str` values are modelled as `List Char`; `bytes`/code-point sequences
  as `List Nat` (one entry per character, `ord`-value).
* Character predicates (`str.isalpha`, `str.isupper`, `str.lower`, whitespace
  used by `str.split()`) are modelled at the ASCII level, which is the level at
  which the program manipulates them.
* Python floats in the analyzer are modelled as exact rationals.
* Functions whose Python originals can raise are modelled with `Option` /
  `Except`.
-/

namespace TextStego

/-- The character list of a string literal. -/
def chars (s : String) : List Char := s.toList

/-- ASCII whitespace recognised by Python `str.split()`:
space and `\t\n\v\f\r`. -/
def pyWS (c : Char) : Bool := c.toNat == 32 || (9 ≤ c.toNat && c.toNat ≤ 13)

/-- The two separator characters of the whitespace method:
`char in [' ', '\t']` in `_extract_whitespace`. -/
def isSpaceTab (c : Char) : Bool := c.toNat == 32 || c.toNat == 9

/-- ASCII model of `str.isalpha` for single characters. -/
def isAlpha (c : Char) : Bool :=
  (65 ≤ c.toNat && c.toNat ≤ 90) || (97 ≤ c.toNat && c.toNat ≤ 122)

/-- ASCII model of `str.isupper` for single characters. -/
def isUpper (c : Char) : Bool := 65 ≤ c.toNat && c.toNat ≤ 90

/-- ASCII model of `str.lower` on one character. -/
def toLower (c : Char) : Char :=
  if 65 ≤ c.toNat && c.toNat ≤ 90 then Char.ofNat (c.toNat + 32) else c

/-- ASCII model of `str.upper` on one character. -/
def toUpper (c : Char) : Char :=
  if 97 ≤ c.toNat && c.toNat ≤ 122 then Char.ofNat (c.toNat - 32) else c

/-- Generic splitter: split a character list at characters satisfying `P`,
dropping empty fragments (the behaviour of Python `str.split()` with no
argument, for the separator class `P`).  `acc` holds the current word
reversed. -/
def splitAux (P : Char → Bool) (acc : List Char) : List Char → List (List Char)
  | [] => if acc.isEmpty then [] else [acc.reverse]
  | c :: cs =>
    if P c then
      (if acc.isEmpty then splitAux P [] cs else acc.reverse :: splitAux P [] cs)
    else splitAux P (c :: acc) cs

/-- Python `str.split()` (whitespace split, empties dropped). -/
def py_split (s : List Char) : List (List Char) := splitAux pyWS [] s

/-! ## The shared bit serialization (`BitCodec` of the spec)

`format(ord(char), '08b')`, the `'00000000'` terminator, and the 8-bit-chunk
decode loop shared by all three `_extract_*` methods. -/

/-- Binary digits of `n`, most significant first, no leading zeros
(`format(n, 'b')` without padding); `fuel`-driven so that it is structural. -/
def bitsAuxFuel : Nat → Nat → List Bool
  | 0, _ => []
  | fuel + 1, n => if n = 0 then [] else bitsAuxFuel fuel (n / 2) ++ [n % 2 == 1]

/-- `format(n, '08b')`: binary representation of `n` left-padded with zeros to
at least 8 digits. -/
def format08b (n : Nat) : List Bool :=
  let raw := bitsAuxFuel n n
  List.replicate (8 - raw.length) false ++ raw

/-- `''.join(format(ord(c), '08b') for c in msg) + '00000000'`: the bit string
embedded for a message, terminator included. -/
def message_to_bits (msg : List Nat) : List Bool :=
  msg.flatMap format08b ++ List.replicate 8 false

/-- `int(byte, 2)` for an 8-character binary string. -/
def bitsToByte (bits : List Bool) : Nat :=
  bits.foldl (fun a b => 2 * a + (if b then 1 else 0)) 0

/-- The decode loop of `_extract_whitespace` / `_extract_synonym` /
`_extract_binary`: read 8-bit chunks, stop at the first all-zero chunk, ignore
a trailing incomplete chunk.  Structural via fuel. -/
def fromBitsFuel : Nat → List Bool → List Nat
  | 0, _ => []
  | fuel + 1, bits =>
    if bits.length < 8 then []
    else
      let byte := bits.take 8
      if byte = List.replicate 8 false then []
      else bitsToByte byte :: fromBitsFuel fuel (bits.drop 8)

/-- Decode a bit string to the recovered message (code points). -/
def bits_to_message (bits : List Bool) : List Nat := fromBitsFuel bits.length bits

/-- The list of complete (length-8) aligned chunks of a bit string. -/
def chunksFuel : Nat → List Bool → List (List Bool)
  | 0, _ => []
  | fuel + 1, bits =>
    if bits.length < 8 then [] else bits.take 8 :: chunksFuel fuel (bits.drop 8)

/-- All complete aligned 8-bit groups of a bit string. -/
def chunks8 (bits : List Bool) : List (List Bool) := chunksFuel bits.length bits

/-! ## The whitespace method (`_embed_whitespace` / `_extract_whitespace`) -/

/-- The word-duplication loop of `_embed_whitespace`: while
`len(words) - 1 < target`, append `words[len(words) % origN]`.
Structural via fuel; `extend_words` supplies enough fuel for the loop to
finish. -/
def extendFuel : Nat → Nat → List (List Char) → Nat → List (List Char)
  | 0, _, words, _ => words
  | fuel + 1, origN, words, target =>
    if words.length - 1 < target then
      extendFuel fuel origN (words ++ [words.getD (words.length % origN) []]) target
    else words

/-- Word list extension of `_embed_whitespace` (`origN` is
`len(cover_text.split())`, the modulus of the indexing expression). -/
def extend_words (origN : Nat) (words : List (List Char)) (target : Nat) :
    List (List Char) :=
  extendFuel (target + 1) origN words target

/-- The join loop of `_embed_whitespace`: words interleaved with one separator
character per gap — a tab for bit 1, a space for bit 0 or once bits are
exhausted. -/
def join_with_bits : List (List Char) → List Bool → List Char
  | [], _ => []
  | [w], _ => w
  | w :: w2 :: ws, bits =>
    w ++ (if bits.headD false then '\t' else ' ') :: join_with_bits (w2 :: ws) (bits.drop 1)

/-- `_embed_whitespace`.  Returns `none` exactly when the Python code raises
`ZeroDivisionError`: the extension loop is entered (always, because the bit
string is never empty) with `len(cover_text.split()) == 0`. -/
def embed_whitespace (cover : List Char) (msg : List Nat) : Option (List Char) :=
  let bits := message_to_bits msg
  let words := py_split cover
  if words.isEmpty then none
  else some (join_with_bits (extend_words words.length words bits.length) bits)

/-- The scanning loop of `_extract_whitespace`: partition the text into word
runs and individual space/tab characters (`acc` holds the current word run,
reversed). -/
def wsScan (acc : List Char) : List Char → List (List Char)
  | [] => if acc.isEmpty then [] else [acc.reverse]
  | c :: cs =>
    if isSpaceTab c then
      (if acc.isEmpty then [[c]] else [acc.reverse, [c]]) ++ wsScan [] cs
    else wsScan (c :: acc) cs

/-- The `parts` list built by `_extract_whitespace`. -/
def ws_parts (s : List Char) : List (List Char) := wsScan [] s

/-- Bit contributed by one part: `'\t'` gives 1, `' '` gives 0, anything else
nothing. -/
def partBit (p : List Char) : Option Bool :=
  if p = ['\t'] then some true else if p = [' '] then some false else none

/-- The bit string recovered by `_extract_whitespace`. -/
def ws_bits (s : List Char) : List Bool := (ws_parts s).filterMap partBit

/-- `_extract_whitespace`. -/
def extract_whitespace (s : List Char) : List Nat := bits_to_message (ws_bits s)

/-! ## The capitalization method (`_embed_binary` / `_extract_binary`) -/

/-- `' '.join(...)` on a token list. -/
def joinSpace : List (List Char) → List Char
  | [] => []
  | [w] => w
  | w :: w2 :: ws => w ++ ' ' :: joinSpace (w2 :: ws)

/-- `clean_word[0].upper() + clean_word[1:].lower() if len(clean_word) > 1
else clean_word.upper()`, including the empty guard of `_embed_binary`. -/
def capitalizeFirst : List Char → List Char
  | [] => []
  | [c] => [toUpper c]
  | c :: rest => toUpper c :: rest.map toLower

/-- One word of `_embed_binary`: the alphabetic characters, recapitalized
according to the bit, followed by all non-alphabetic characters. -/
def capEncode (w : List Char) (b : Bool) : List Char :=
  let clean := w.filter (fun c => isAlpha c)
  let punct := w.filter (fun c => !(isAlpha c))
  (if b then capitalizeFirst clean else clean.map toLower) ++ punct

/-- Dummy word of `_embed_binary`: `'Data'` for bit 1, `'data'` for bit 0. -/
def dummyBin (b : Bool) : List Char := if b then chars "Data" else chars "data"

/-- The word loop of `_embed_binary`: the first `len(bits)` words carry one bit
each, later words pass unchanged, and missing words are replaced by dummy
words. -/
def encBinWords : List (List Char) → List Bool → List (List Char)
  | ws, [] => ws
  | [], b :: bs => dummyBin b :: encBinWords [] bs
  | w :: ws, b :: bs => capEncode w b :: encBinWords ws bs

/-- `_embed_binary`. -/
def embed_binary (cover : List Char) (msg : List Nat) : List Char :=
  joinSpace (encBinWords (py_split cover) (message_to_bits msg))

/-- Bit read from one word by `_extract_binary`: 1 iff the word's alphabetic
part is nonempty and starts with an uppercase letter. -/
def binBit (w : List Char) : Bool :=
  match w.filter (fun c => isAlpha c) with
  | [] => false
  | c :: _ => isUpper c

/-- The bit string recovered by `_extract_binary`. -/
def bin_bits (s : List Char) : List Bool := (py_split s).map binBit

/-- `_extract_binary`. -/
def extract_binary (s : List Char) : List Nat := bits_to_message (bin_bits s)

/-! ## The synonym method (`_embed_synonym` / `_extract_synonym`) -/

/-- The punctuation class `'.,!?;:"()[]\x7b\x7d'` stripped and captured by the
synonym method. -/
def PUNCT : List Char := chars ".,!?;:\"()[]\x7b\x7d"

/-- Membership in the punctuation class. -/
def isPunct (c : Char) : Bool := PUNCT.contains c

/-- Python `str.strip('.,!?;:"()[]\x7b\x7d')`: remove the punctuation class
from both ends. -/
def stripChars (s : List Char) : List Char :=
  ((s.dropWhile isPunct).reverse.dropWhile isPunct).reverse

/-- Python `str.lower()`. -/
def lowerStr (s : List Char) : List Char := s.map toLower

/-- `word.lower().strip('.,!?;:"()[]\x7b\x7d')`, the cleaned form used by both
synonym embed and extract (and by the analyzer's function-word count). -/
def cleanWord (w : List Char) : List Char := stripChars (lowerStr w)

/-- Python `str.capitalize()`: first character uppercased, rest lowercased. -/
def capitalizePy : List Char → List Char
  | [] => []
  | c :: rest => toUpper c :: rest.map toLower

/-- `word[0].isupper() if word else False`. -/
def isCap (w : List Char) : Bool :=
  match w with
  | [] => false
  | c :: _ => isUpper c

/-- The synonym table of `_embed_synonym` / `_extract_synonym`, in source
(insertion) order. -/
def synTable : List (List Char × List (List Char)) := [
  (chars "the", [chars "the", chars "this", chars "that", chars "these", chars "those"]),
  (chars "and", [chars "and", chars "also", chars "plus", chars "furthermore", chars "moreover"]),
  (chars "or", [chars "or", chars "either", chars "else", chars "alternatively", chars "otherwise"]),
  (chars "but", [chars "but", chars "however", chars "yet", chars "nevertheless", chars "nonetheless"]),
  (chars "is", [chars "is", chars "exists", chars "appears", chars "seems", chars "represents"]),
  (chars "are", [chars "are", chars "exist", chars "seem", chars "appear", chars "represent"]),
  (chars "was", [chars "was", chars "were", chars "existed", chars "occurred", chars "happened"]),
  (chars "were", [chars "were", chars "was", chars "seemed", chars "appeared", chars "occurred"]),
  (chars "have", [chars "have", chars "possess", chars "own", chars "contain", chars "hold"]),
  (chars "has", [chars "has", chars "possesses", chars "owns", chars "contains", chars "holds"]),
  (chars "had", [chars "had", chars "possessed", chars "owned", chars "contained", chars "held"]),
  (chars "do", [chars "do", chars "perform", chars "execute", chars "accomplish", chars "achieve"]),
  (chars "does", [chars "does", chars "performs", chars "executes", chars "accomplishes", chars "achieves"]),
  (chars "did", [chars "did", chars "performed", chars "executed", chars "accomplished", chars "achieved"]),
  (chars "will", [chars "will", chars "shall", chars "going to", chars "intend to", chars "plan to"]),
  (chars "would", [chars "would", chars "should", chars "going to", chars "intend to", chars "plan to"]),
  (chars "could", [chars "could", chars "might", chars "possibly", chars "potentially", chars "perhaps"]),
  (chars "should", [chars "should", chars "ought to", chars "must", chars "need to", chars "have to"]),
  (chars "may", [chars "may", chars "might", chars "possibly", chars "potentially", chars "perhaps"]),
  (chars "can", [chars "can", chars "could", chars "able to", chars "capable of", chars "permitted to"]),
  (chars "be", [chars "be", chars "exist", chars "become", chars "appear", chars "seem"])]

/-- The scan of `_extract_synonym` over the table: first key whose
`options[0]` (bit 0) or `options[1]` (bit 1) matches the cleaned word wins. -/
def findBit : List (List Char × List (List Char)) → List Char → Option Bool
  | [], _ => none
  | (_, options) :: rest, cl =>
    if cl = options.getD 0 [] then some false
    else if 1 < options.length ∧ cl = options.getD 1 [] then some true
    else findBit rest cl

/-- Bit contributed by one cleaned word in `_extract_synonym`: the table scan,
then the dummy-word fallback (`'furthermore'` gives 1, `'and'` gives 0). -/
def synExtractBit (cl : List Char) : Option Bool :=
  match findBit synTable cl with
  | some b => some b
  | none =>
    if cl = chars "furthermore" then some true
    else if cl = chars "and" then some false
    else none

/-- The bit string recovered by `_extract_synonym`. -/
def syn_bits (s : List Char) : List Bool :=
  (py_split s).filterMap (fun w => synExtractBit (cleanWord w))

/-- `_extract_synonym`. -/
def extract_synonym (s : List Char) : List Nat := bits_to_message (syn_bits s)

/-- One substituted word of `_embed_synonym`: the chosen alternative, original
capitalization reapplied, captured punctuation appended. -/
def synEncodeWord (w : List Char) (options : List (List Char)) (b : Bool) : List Char :=
  let synonym :=
    if b then (if 1 < options.length then options.getD 1 [] else options.getD 0 [])
    else options.getD 0 []
  let synonym2 := if isCap w then capitalizePy synonym else synonym
  synonym2 ++ w.filter isPunct

/-- The word loop of `_embed_synonym`: table words consume one bit while bits
remain, all other words pass unchanged.  Returns the emitted tokens and the
unconsumed bits. -/
def embSynWords : List (List Char) → List Bool → List (List Char) × List Bool
  | [], bits => ([], bits)
  | w :: ws, bits =>
    match synTable.lookup (cleanWord w), bits with
    | some options, b :: bs =>
      let r := embSynWords ws bs
      (synEncodeWord w options b :: r.1, r.2)
    | _, _ =>
      let r := embSynWords ws bits
      (w :: r.1, r.2)

/-- Dummy word of `_embed_synonym`: `'Furthermore'` for 1, `'and'` for 0. -/
def dummySyn (b : Bool) : List Char := if b then chars "Furthermore" else chars "and"

/-- `_embed_synonym`. -/
def embed_synonym (cover : List Char) (msg : List Nat) : List Char :=
  let r := embSynWords (py_split cover) (message_to_bits msg)
  joinSpace (r.1 ++ r.2.map dummySyn)

/-! ## The dispatchers (`embed_message` / `extract_message`) -/

/-- Failure modes of the codec: the `ValueError("Unsupported method: ...")`
raised by both dispatchers, and the `ZeroDivisionError` of
`_embed_whitespace` on a wordless cover. -/
inductive StegErr where
  | unsupportedMethod (method : String)
  | zeroDivision
  deriving DecidableEq

/-- `TextSteganography.embed_message`. -/
def embed_message (cover : List Char) (msg : List Nat) (method : String) :
    Except StegErr (List Char) :=
  if method = "whitespace" then
    match embed_whitespace cover msg with
    | some t => .ok t
    | none => .error .zeroDivision
  else if method = "synonym" then .ok (embed_synonym cover msg)
  else if method = "binary" then .ok (embed_binary cover msg)
  else .error (.unsupportedMethod method)

/-- `TextSteganography.extract_message`. -/
def extract_message (stego : List Char) (method : String) :
    Except StegErr (List Nat) :=
  if method = "whitespace" then .ok (extract_whitespace stego)
  else if method = "synonym" then .ok (extract_synonym stego)
  else if method = "binary" then .ok (extract_binary stego)
  else .error (.unsupportedMethod method)

/-! ## The recommender (`AIAnalyzer.analyze_text_for_steganography`) -/

/-- The function-word list of the analyzer. -/
def synonym_words : List (List Char) := [
  chars "the", chars "and", chars "or", chars "but", chars "is", chars "are",
  chars "was", chars "were", chars "have", chars "has", chars "had",
  chars "do", chars "does", chars "did", chars "will", chars "would",
  chars "could", chars "should", chars "may", chars "can", chars "be"]

/-- `AIAnalyzer._calculate_text_complexity`: the average of a normalized
average word length and the distinct-word ratio. -/
def complexity_score (text : List Char) : ℚ :=
  let words := py_split text
  if words.isEmpty then 0
  else
    let avg : ℚ := ((words.map List.length).sum : ℚ) / (words.length : ℚ)
    let diversity : ℚ := (((words.map lowerStr).dedup.length : ℚ)) / (words.length : ℚ)
    (min (avg / 10) 1 + diversity) / 2

/-- The fields of the analyzer's result that carry algorithmic content. -/
structure AnalysisResult where
  word_count : Nat
  char_count : Nat
  synonym_word_count : Nat
  complexity : ℚ
  recommended_method : String
  confidence : ℚ
  estimated_capacity : Nat
  deriving DecidableEq

/-- `AIAnalyzer.analyze_text_for_steganography` (method-selection rules,
confidences, and capacity estimate; floats as exact rationals). -/
def analyze_text_for_steganography (text : List Char) : AnalysisResult :=
  let words := py_split text
  let word_count := words.length
  let char_count := text.length
  let synonym_count := (words.filter (fun w => synonym_words.contains (cleanWord w))).length
  let cscore := complexity_score text
  let mc : String × ℚ :=
    if word_count < 30 then ("whitespace", 0.95)
    else if (synonym_count : ℚ) > (word_count : ℚ) * 0.4 then ("synonym", 0.9)
    else if cscore > 0.8 then ("synonym", 0.85)
    else if 200 < word_count ∧ 1000 < char_count then ("binary", 0.8)
    else ("whitespace", 0.75)
  let cap :=
    if mc.1 = "whitespace" then word_count / 3
    else if mc.1 = "synonym" then min synonym_count (word_count / 4)
    else word_count / 5
  ⟨word_count, char_count, synonym_count, cscore, mc.1, mc.2, cap⟩

/-- Python `str.split()` restricted to space and tab as separators, used to
state the frame property of the whitespace method. -/
def split_space_tab (s : List Char) : List (List Char) := splitAux isSpaceTab [] s

/-- The bit string each extraction method recovers from a text before
decoding. -/
def recovered_bits (stego : List Char) (method : String) : List Bool :=
  if method = "whitespace" then ws_bits stego
  else if method = "synonym" then syn_bits stego
  else if method = "binary" then bin_bits stego
  else []

/-- A table key is *reliable* when its two encoding alternatives are nonempty
lowercase-ASCII words that `_extract_synonym` decodes back to bits 0 and 1
respectively.  (The keys `were`, `should` and `can` are not reliable: the
extraction scan maps `were` to bit 1 via the entry for `was`, maps `could` —
the bit-1 alternative of `can` — to bit 0 via the entry for `could`, maps
`should` to bit 1 via the entry for `would`, and the bit-1 alternative
`ought to` of `should` contains a space and is split in two by extraction.) -/
def decodesAs (s : List Char) (b : Bool) : Bool :=
  !s.isEmpty && s.all (fun c => 97 ≤ c.toNat && c.toNat ≤ 122) &&
    (synExtractBit s == some b)

/-- A cleaned cover word that is a reliable synonym-table key. -/
def goodKeyWord (cl : List Char) : Bool :=
  match synTable.lookup cl with
  | some options =>
    decide (1 < options.length) && decodesAs (options.getD 0 []) false &&
      decodesAs (options.getD 1 []) true
  | none => false

/-- A cleaned cover word that is not a table key and contributes no bit during
extraction. -/
def neutralWord (cl : List Char) : Bool :=
  (synTable.lookup cl).isNone && (synExtractBit cl).isNone

end TextStego

deriving instance DecidableEq for Except

/-! # Theorems -/

namespace TextStego

/-- `Char.ofNat` and `Char.toNat` cancel for valid (small) code points. -/
theorem toNat_ofNat_valid (n : Nat) (h : n < 55296) : (Char.ofNat n).toNat = n := by
  have hv : n.isValidChar := Or.inl h
  simp only [Char.ofNat, hv, dite_true, Char.ofNatAux, Char.toNat, UInt32.ofNatCore,
    UInt32.toNat, BitVec.toNat_ofNatLt]

/-- Characters are equal iff their code points are. -/
theorem char_eq_iff_toNat (c d : Char) : c = d ↔ c.toNat = d.toNat := by
  constructor
  · rintro rfl; rfl
  · intro h
    have h1 := Char.ofNat_toNat c
    have h2 := Char.ofNat_toNat d
    rw [← h1, ← h2, h]

/-! ## Bit codec lemmas -/

set_option maxRecDepth 4000 in
/-- Per-byte facts about `format(b, '08b')` for byte values: 8 digits, decoding
back to `b`, and all-zero only for `b = 0`. -/
theorem format08b_spec : ∀ b : Nat, b < 256 →
    (format08b b).length = 8 ∧ bitsToByte (format08b b) = b ∧
      (b ≠ 0 → format08b b ≠ List.replicate 8 false) := by decide

/-- The decode loop stops immediately at an all-zero chunk. -/
theorem fromBitsFuel_zeros (f : Nat) (junk : List Bool) :
    fromBitsFuel f (List.replicate 8 false ++ junk) = [] := by
  cases f with
  | zero => rfl
  | succ f =>
    have htake : (List.replicate 8 false ++ junk).take 8 = List.replicate 8 false := by
      simp
    simp [fromBitsFuel, htake]

/-- The decode loop ignores a trailing incomplete chunk. -/
theorem fromBitsFuel_short (f : Nat) (bits : List Bool) (h : bits.length < 8) :
    fromBitsFuel f bits = [] := by
  cases f with
  | zero => rfl
  | succ f => simp [fromBitsFuel, h]

/-- Core decoding lemma: a sequence of complete nonzero chunks decodes to its
bytes, and decoding continues on the rest. -/
theorem fromBitsFuel_chunks (gs : List (List Bool)) :
    ∀ (fuel : Nat) (rest : List Bool),
      (∀ g ∈ gs, g.length = 8 ∧ g ≠ List.replicate 8 false) → gs.length ≤ fuel →
      fromBitsFuel fuel (gs.flatten ++ rest) =
        gs.map bitsToByte ++ fromBitsFuel (fuel - gs.length) rest := by
  induction gs with
  | nil => intro fuel rest _ _; simp
  | cons g gs ih =>
    intro fuel rest hg hf
    obtain ⟨f, rfl⟩ : ∃ f, fuel = f + 1 := ⟨fuel - 1, by simp at hf; omega⟩
    obtain ⟨hg8, hgz⟩ := hg g (by simp)
    have hflat : (g :: gs).flatten ++ rest = g ++ (gs.flatten ++ rest) := by simp
    have hlen : ¬ (g ++ (gs.flatten ++ rest)).length < 8 := by
      simp [hg8]
    have htake : (g ++ (gs.flatten ++ rest)).take 8 = g := by
      rw [← hg8]; exact List.take_left _ _
    have hdrop : (g ++ (gs.flatten ++ rest)).drop 8 = gs.flatten ++ rest := by
      rw [← hg8]; exact List.drop_left _ _
    rw [hflat]
    simp only [fromBitsFuel, htake, hdrop, if_neg hlen, if_neg hgz]
    rw [ih f rest (fun x hx => hg x (by simp [hx])) (by simp at hf; omega)]
    simp [Nat.succ_sub_succ]

/-- Length of the serialized payload body. -/
theorem flatMap_format08b_length (msg : List Nat) (h : ∀ b ∈ msg, b < 256) :
    (msg.flatMap format08b).length = 8 * msg.length := by
  induction msg with
  | nil => simp
  | cons b bs ih =>
    have h1 : (format08b b).length = 8 := (format08b_spec b (h b (by simp))).1
    have h2 := ih (fun x hx => h x (by simp [hx]))
    simp [h1, h2]
    ring

/-- The serialized body is the concatenation of the per-byte chunks. -/
theorem map_flatten_format08b (msg : List Nat) :
    (msg.map format08b).flatten = msg.flatMap format08b := by
  simp [List.flatMap]

/-- Decoding a serialized nonzero-byte prefix followed by a terminator and
anything at all recovers exactly the prefix. -/
theorem decode_flatMap (msg : List Nat) (junk : List Bool)
    (h : ∀ b ∈ msg, 0 < b ∧ b < 256) :
    bits_to_message (msg.flatMap format08b ++ (List.replicate 8 false ++ junk)) = msg := by
  have hg : ∀ g ∈ msg.map format08b, g.length = 8 ∧ g ≠ List.replicate 8 false := by
    intro g hgmem
    obtain ⟨b, hb, rfl⟩ := List.mem_map.1 hgmem
    exact ⟨(format08b_spec b (h b hb).2).1,
      (format08b_spec b (h b hb).2).2.2 (by have := (h b hb).1; omega)⟩
  have hlen : (msg.map format08b).length ≤
      (msg.flatMap format08b ++ (List.replicate 8 false ++ junk)).length := by
    simp [flatMap_format08b_length msg (fun b hb => (h b hb).2)]
    omega
  unfold bits_to_message
  rw [← map_flatten_format08b]
  rw [fromBitsFuel_chunks (msg.map format08b) _ _ hg
    (by rw [map_flatten_format08b]; exact hlen)]
  rw [fromBitsFuel_zeros]
  rw [List.append_nil, List.map_map]
  have : ∀ b ∈ msg, (bitsToByte ∘ format08b) b = b := fun b hb =>
    (format08b_spec b (h b hb).2).2.1
  rw [List.map_congr_left this]
  simp

/-- `takeWhile` is the identity when every element satisfies the predicate. -/
theorem takeWhile_all {α : Type} (p : α → Bool) (l : List α)
    (h : ∀ x ∈ l, p x = true) : l.takeWhile p = l := by
  induction l with
  | nil => rfl
  | cons x xs ih =>
    simp [List.takeWhile_cons, h x (by simp), ih (fun y hy => h y (by simp [hy]))]

/-- Every byte list splits at its first zero (or has none). -/
theorem first_zero_split (b : List Nat) :
    (∀ x ∈ b, x ≠ 0) ∨
      ∃ pre suf, b = pre ++ 0 :: suf ∧ (∀ x ∈ pre, x ≠ 0) ∧
        b.takeWhile (fun x => x != 0) = pre := by
  induction b with
  | nil => exact Or.inl (by simp)
  | cons x xs ih =>
    by_cases hx : x = 0
    · subst hx
      exact Or.inr ⟨[], xs, by simp, by simp, by simp [List.takeWhile_cons]⟩
    · rcases ih with h | ⟨pre, suf, heq, hpre, htw⟩
      · refine Or.inl ?_
        intro y hy
        rcases List.mem_cons.1 hy with rfl | hy
        · exact hx
        · exact h y hy
      · refine Or.inr ⟨x :: pre, suf, by simp [heq], ?_, ?_⟩
        · intro y hy
          rcases List.mem_cons.1 hy with rfl | hy
          · exact hx
          · exact hpre y hy
        · simp [List.takeWhile_cons, hx, htw]

/-- **C2** Terminator semantics of the shared bit serialization: decoding the
bit string produced by serializing a byte sequence returns the bytes up to
(excluding) the first `0x00` byte — the whole sequence when no byte is zero. -/
theorem bitcodec_terminator_semantics (b : List Nat) (hb : ∀ x ∈ b, x < 256) :
    bits_to_message (message_to_bits b) = b.takeWhile (fun x => x != 0) := by
  rcases first_zero_split b with h | ⟨pre, suf, heq, hpre, htw⟩
  · rw [takeWhile_all _ _ (by intro x hx; simpa using h x hx)]
    have : message_to_bits b = b.flatMap format08b ++ (List.replicate 8 false ++ []) := by
      simp [message_to_bits]
    rw [this]
    exact decode_flatMap b [] (fun x hx => ⟨Nat.pos_of_ne_zero (h x hx), hb x hx⟩)
  · rw [htw]
    have hz : format08b 0 = List.replicate 8 false := by decide
    have : message_to_bits b = pre.flatMap format08b ++
        (List.replicate 8 false ++ (suf.flatMap format08b ++ List.replicate 8 false)) := by
      simp [message_to_bits, heq, hz]
    rw [this]
    exact decode_flatMap pre _ (fun x hx =>
      ⟨Nat.pos_of_ne_zero (hpre x hx), hb x (by simp [heq, hx])⟩)

/-- Witness for C2 at a concrete input containing a zero byte. -/
theorem bitcodec_terminator_semantics_witness :
    bits_to_message (message_to_bits [72, 0, 65]) = [72] := by
  have h := bitcodec_terminator_semantics [72, 0, 65] (by decide)
  rw [h]
  decide

/-- Lengths of complete chunks. -/
theorem flatten_length_of_chunks (gs : List (List Bool))
    (h : ∀ g ∈ gs, g.length = 8) : gs.flatten.length = 8 * gs.length := by
  induction gs with
  | nil => simp
  | cons g gs ih =>
    have h1 := h g (by simp)
    have h2 := ih (fun x hx => h x (by simp [hx]))
    simp [h1, h2]
    ring

/-- **C5** Best-effort decode: the shared decoder reads 8-bit groups left to
right; it stops at the first all-zero group and returns the bytes decoded
before it, a trailing group of fewer than 8 bits is ignored, and when the
whole string is consumed without an all-zero group it returns everything
decoded rather than failing. -/
theorem bitcodec_best_effort (gs : List (List Bool)) (tail junk : List Bool)
    (hg : ∀ g ∈ gs, g.length = 8 ∧ g ≠ List.replicate 8 false)
    (ht : tail.length < 8) :
    bits_to_message (gs.flatten ++ (List.replicate 8 false ++ junk)) =
        gs.map bitsToByte ∧
      bits_to_message (gs.flatten ++ tail) = gs.map bitsToByte := by
  have hfl : gs.flatten.length = 8 * gs.length :=
    flatten_length_of_chunks gs (fun g hgm => (hg g hgm).1)
  constructor
  · unfold bits_to_message
    rw [fromBitsFuel_chunks gs _ _ hg (by simp [hfl]; omega)]
    rw [fromBitsFuel_zeros]
    simp
  · unfold bits_to_message
    rw [fromBitsFuel_chunks gs _ _ hg (by simp [hfl]; omega)]
    rw [fromBitsFuel_short _ _ ht]
    simp

/-- Witness for C5 at concrete chunks, tail and junk. -/
theorem bitcodec_best_effort_witness :
    bits_to_message ([[true, false, false, false, false, false, false, false]].flatten ++
        (List.replicate 8 false ++ [true])) = [128] ∧
      bits_to_message ([[true, false, false, false, false, false, false, false]].flatten ++
        [true, true]) = [128] := by
  have h := bitcodec_best_effort
    [[true, false, false, false, false, false, false, false]] [true, true] [true]
    (by decide) (by decide)
  exact h

/-- When no aligned 8-bit group is all-zero, the decode loop decodes every
complete group. -/
theorem fromBitsFuel_no_zero_chunk : ∀ (f : Nat) (bits : List Bool),
    (∀ g ∈ chunksFuel f bits, g ≠ List.replicate 8 false) →
    fromBitsFuel f bits = (chunksFuel f bits).map bitsToByte := by
  intro f
  induction f with
  | zero => intro bits _; rfl
  | succ f ih =>
    intro bits h
    by_cases hlen : bits.length < 8
    · simp [fromBitsFuel, chunksFuel, hlen]
    · have hz : bits.take 8 ≠ List.replicate 8 false := by
        apply h
        simp [chunksFuel, hlen]
      have hrec := ih (bits.drop 8) (fun g hg => h g (by simp [chunksFuel, hlen, hg]))
      have hz' : ¬ bits.take 8 = [false, false, false, false, false, false, false, false] := by
        intro hc
        exact hz (by rw [hc]; rfl)
      simp [fromBitsFuel, chunksFuel, hlen, hz', hrec]

/-! ## Character-class lemmas -/

/-- Code point of `toLower`. -/
theorem toLower_toNat (c : Char) :
    (toLower c).toNat = if 65 ≤ c.toNat ∧ c.toNat ≤ 90 then c.toNat + 32 else c.toNat := by
  unfold toLower
  by_cases h : 65 ≤ c.toNat ∧ c.toNat ≤ 90
  · rw [if_pos (by simp only [Bool.and_eq_true, decide_eq_true_eq]; exact h), if_pos h]
    exact toNat_ofNat_valid _ (by omega)
  · rw [if_neg (by simp only [Bool.and_eq_true, decide_eq_true_eq]; exact h), if_neg h]

/-- Code point of `toUpper`. -/
theorem toUpper_toNat (c : Char) :
    (toUpper c).toNat = if 97 ≤ c.toNat ∧ c.toNat ≤ 122 then c.toNat - 32 else c.toNat := by
  unfold toUpper
  by_cases h : 97 ≤ c.toNat ∧ c.toNat ≤ 122
  · rw [if_pos (by simp only [Bool.and_eq_true, decide_eq_true_eq]; exact h), if_pos h]
    exact toNat_ofNat_valid _ (by omega)
  · rw [if_neg (by simp only [Bool.and_eq_true, decide_eq_true_eq]; exact h), if_neg h]

/-- `toLower` fixes characters outside the uppercase range. -/
theorem toLower_eq_self (c : Char) (h : ¬(65 ≤ c.toNat ∧ c.toNat ≤ 90)) :
    toLower c = c := by
  unfold toLower
  rw [if_neg (by simp only [Bool.and_eq_true, decide_eq_true_eq]; exact h)]

/-- `toUpper` fixes characters outside the lowercase range. -/
theorem toUpper_eq_self (c : Char) (h : ¬(97 ≤ c.toNat ∧ c.toNat ≤ 122)) :
    toUpper c = c := by
  unfold toUpper
  rw [if_neg (by simp only [Bool.and_eq_true, decide_eq_true_eq]; exact h)]

/-- Lowercasing an uppercased lowercase letter gives it back. -/
theorem toLower_toUpper (c : Char) (h : 97 ≤ c.toNat ∧ c.toNat ≤ 122) :
    toLower (toUpper c) = c := by
  apply (char_eq_iff_toNat _ _).2
  rw [toLower_toNat, toUpper_toNat, if_pos h, if_pos (by omega)]
  omega

/-- Lowercase letters are fixed by `toLower`. -/
theorem toLower_of_az (c : Char) (h : 97 ≤ c.toNat ∧ c.toNat ≤ 122) :
    toLower c = c :=
  toLower_eq_self c (by omega)

/-- Characters with code points above the ASCII controls and space are not
Python whitespace. -/
theorem pyWS_false_of_ge (c : Char) (h : 33 ≤ c.toNat) : pyWS c = false := by
  simp [pyWS]
  omega

/-- Space/tab separators are Python whitespace, so split words contain
neither. -/
theorem isSpaceTab_false_of_pyWS (c : Char) (h : pyWS c = false) :
    isSpaceTab c = false := by
  simp [pyWS] at h
  simp [isSpaceTab]
  omega

/-! ## Splitter lemmas -/

/-- Membership in a reversed accumulator. -/
theorem mem_reverse_imp {c : Char} {acc : List Char} (h : c ∈ acc.reverse) : c ∈ acc :=
  List.mem_reverse.1 h

/-- The splitter flushes a nonempty accumulator at the end of input. -/
theorem splitAux_nil_acc (P : Char → Bool) (acc : List Char) (h : acc ≠ []) :
    splitAux P acc [] = [acc.reverse] := by
  rcases acc with _ | ⟨a, as⟩
  · exact absurd rfl h
  · rfl

/-- The splitter flushes a nonempty accumulator at a separator. -/
theorem splitAux_sep (P : Char → Bool) (acc : List Char) (c : Char) (s : List Char)
    (hc : P c = true) (hacc : acc ≠ []) :
    splitAux P acc (c :: s) = acc.reverse :: splitAux P [] s := by
  rcases acc with _ | ⟨a, as⟩
  · exact absurd rfl hacc
  · show (if P c = true then _ else _) = _
    rw [if_pos hc]
    rfl

/-- The splitter skips a separator on an empty accumulator. -/
theorem splitAux_sep_nil (P : Char → Bool) (c : Char) (s : List Char) (hc : P c = true) :
    splitAux P [] (c :: s) = splitAux P [] s := by
  show (if P c = true then _ else _) = _
  rw [if_pos hc]
  rfl

/-- The splitter accumulates a non-separator character. -/
theorem splitAux_word_char (P : Char → Bool) (acc : List Char) (c : Char) (s : List Char)
    (hc : P c = false) :
    splitAux P acc (c :: s) = splitAux P (c :: acc) s := by
  show (if P c = true then _ else _) = _
  rw [if_neg (by simp [hc])]

/-- Words produced by the splitter are nonempty and free of separator
characters. -/
theorem splitAux_clean (P : Char → Bool) (s : List Char) :
    ∀ acc, (∀ c ∈ acc, P c = false) →
      ∀ w ∈ splitAux P acc s, w ≠ [] ∧ ∀ c ∈ w, P c = false := by
  induction s with
  | nil =>
    intro acc hacc w hw
    rcases acc with _ | ⟨a, as⟩
    · simp [splitAux] at hw
    · rw [splitAux_nil_acc P _ (by simp)] at hw
      simp only [List.mem_singleton] at hw
      subst hw
      exact ⟨by simp, fun c hc => hacc c (mem_reverse_imp hc)⟩
  | cons c cs ih =>
    intro acc hacc w hw
    by_cases hP : P c = true
    · rcases acc with _ | ⟨a, as⟩
      · rw [splitAux_sep_nil P c cs hP] at hw
        exact ih [] (by simp) w hw
      · rw [splitAux_sep P _ c cs hP (by simp)] at hw
        rcases List.mem_cons.1 hw with rfl | hw
        · exact ⟨by simp, fun d hd => hacc d (mem_reverse_imp hd)⟩
        · exact ih [] (by simp) w hw
    · have hP' : P c = false := by simpa using hP
      rw [splitAux_word_char P acc c cs hP'] at hw
      refine ih (c :: acc) ?_ w hw
      intro d hd
      rcases List.mem_cons.1 hd with rfl | hd
      · exact hP'
      · exact hacc d hd

/-- Words of `py_split` are nonempty and contain no Python whitespace. -/
theorem py_split_clean (s : List Char) :
    ∀ w ∈ py_split s, w ≠ [] ∧ ∀ c ∈ w, pyWS c = false :=
  splitAux_clean pyWS s [] (by simp)

/-- Scanning a separator-free word accumulates it. -/
theorem splitAux_word (P : Char → Bool) (w : List Char) :
    ∀ (acc : List Char) (s : List Char), (∀ c ∈ w, P c = false) →
      splitAux P acc (w ++ s) = splitAux P (w.reverse ++ acc) s := by
  induction w with
  | nil => intro acc s _; simp
  | cons c w ih =>
    intro acc s h
    have hc : P c = false := h c (by simp)
    rw [List.cons_append, splitAux_word_char P acc c _ hc,
      ih (c :: acc) s (fun d hd => h d (by simp [hd]))]
    simp

/-- Splitting the bit-encoded join of nonempty separator-free tokens gives the
tokens back, regardless of the embedded bits. -/
theorem splitAux_join_with_bits (P : Char → Bool)
    (hT : P '\t' = true) (hS : P ' ' = true) :
    ∀ (ws : List (List Char)) (bits : List Bool),
      (∀ w ∈ ws, w ≠ [] ∧ ∀ c ∈ w, P c = false) →
      splitAux P [] (join_with_bits ws bits) = ws := by
  intro ws
  induction ws with
  | nil => intro bits _; rfl
  | cons w ws ih =>
    cases ws with
    | nil =>
      intro bits h
      obtain ⟨hne, hcl⟩ := h w (by simp)
      have hw : join_with_bits [w] bits = w ++ [] := by simp [join_with_bits]
      rw [hw, splitAux_word P w [] [] hcl, List.append_nil,
        splitAux_nil_acc P _ (by simp [hne]), List.reverse_reverse]
    | cons w2 ws =>
      intro bits h
      obtain ⟨hne, hcl⟩ := h w (by simp)
      have hj : join_with_bits (w :: w2 :: ws) bits =
          w ++ (if bits.headD false then '\t' else ' ') ::
            join_with_bits (w2 :: ws) (bits.drop 1) :=
        rfl
      have hsep : P (if bits.headD false then '\t' else ' ') = true := by
        cases hb : bits.headD false <;> simp [hb, hT, hS]
      rw [hj, splitAux_word P w [] _ hcl, List.append_nil,
        splitAux_sep P _ _ _ hsep (by simp [hne]), List.reverse_reverse,
        ih (bits.drop 1) (fun x hx => h x (by simp [hx]))]

/-! ## Whitespace method lemmas -/

/-- Useful code points. -/
theorem tab_toNat : ('\t').toNat = 9 := by decide

/-- Useful code points. -/
theorem space_toNat : (' ').toNat = 32 := by decide

/-- `filterMap` of an everywhere-`none` function. -/
theorem filterMap_none {α β : Type} (f : α → Option β) (l : List α)
    (h : ∀ x ∈ l, f x = none) : l.filterMap f = [] := by
  induction l with
  | nil => rfl
  | cons x xs ih =>
    simp [List.filterMap_cons, h x (by simp), ih (fun y hy => h y (by simp [hy]))]

/-- A single separator character contributes its bit. -/
theorem partBit_single (c : Char) :
    partBit [c] = if isSpaceTab c = true then some (c.toNat == 9) else none := by
  by_cases h9 : c.toNat = 9
  · have hc : c = '\t' := (char_eq_iff_toNat c '\t').2 (by rw [tab_toNat, h9])
    subst hc
    decide
  · by_cases h32 : c.toNat = 32
    · have hc : c = ' ' := (char_eq_iff_toNat c ' ').2 (by rw [space_toNat, h32])
      subst hc
      decide
    · have hne1 : ¬([c] = ['\t']) := by
        simp only [List.cons.injEq, and_true]
        intro hc
        subst hc
        exact h9 tab_toNat
      have hne2 : ¬([c] = [' ']) := by
        simp only [List.cons.injEq, and_true]
        intro hc
        subst hc
        exact h32 space_toNat
      unfold partBit
      rw [if_neg hne1, if_neg hne2, if_neg (by simp [isSpaceTab, h9, h32])]

/-- Membership in an accumulator flushed as a word. -/
theorem mem_rev_snoc {c a : Char} {as : List Char} (h : c ∈ as.reverse ++ [a]) :
    c ∈ a :: as := by
  rw [← List.reverse_cons] at h
  exact mem_reverse_imp h

/-- A nonempty separator-free word part contributes no bit. -/
theorem partBit_word (p : List Char) (_hp : p ≠ [])
    (h : ∀ c ∈ p, isSpaceTab c = false) : partBit p = none := by
  unfold partBit
  have h1 : ¬(p = ['\t']) := by
    intro hc
    have := h '\t' (by simp [hc])
    simp [isSpaceTab] at this
  have h2 : ¬(p = [' ']) := by
    intro hc
    have := h ' ' (by simp [hc])
    simp [isSpaceTab] at this
  rw [if_neg h1, if_neg h2]

/-- The part-based bit extraction of `_extract_whitespace` equals a direct
character scan for separator characters. -/
theorem wsScan_filterMap (s : List Char) :
    ∀ acc, (∀ c ∈ acc, isSpaceTab c = false) →
      (wsScan acc s).filterMap partBit =
        s.filterMap (fun c => if isSpaceTab c then some (c.toNat == 9) else none) := by
  induction s with
  | nil =>
    intro acc hacc
    rcases acc with _ | ⟨a, as⟩
    · rfl
    · rw [show wsScan (a :: as) [] = [(a :: as).reverse] from rfl]
      have hn : partBit (as.reverse ++ [a]) = none :=
        partBit_word _ (by simp) (fun c hc => hacc c (mem_rev_snoc hc))
      simp [List.filterMap_cons, hn]
  | cons c cs ih =>
    intro acc hacc
    by_cases hc : isSpaceTab c = true
    · have hbit : partBit [c] = some (c.toNat == 9) := by
        rw [partBit_single, if_pos hc]
      rcases acc with _ | ⟨a, as⟩
      · rw [show wsScan [] (c :: cs) = [[c]] ++ wsScan [] cs from by simp [wsScan, hc]]
        rw [List.filterMap_append, ih [] (by simp)]
        simp [List.filterMap_cons, hbit, hc]
      · rw [show wsScan (a :: as) (c :: cs) = [(a :: as).reverse, [c]] ++ wsScan [] cs from by
          simp [wsScan, hc]]
        have hn : partBit (as.reverse ++ [a]) = none :=
          partBit_word _ (by simp) (fun d hd => hacc d (mem_rev_snoc hd))
        rw [List.filterMap_append, ih [] (by simp)]
        simp [List.filterMap_cons, hn, hbit, hc]
    · have hc' : isSpaceTab c = false := by simpa using hc
      rw [show wsScan acc (c :: cs) = wsScan (c :: acc) cs from by simp [wsScan, hc']]
      rw [ih (c :: acc) (by
        intro d hd
        rcases List.mem_cons.1 hd with rfl | hd
        · exact hc'
        · exact hacc d hd)]
      simp [List.filterMap_cons, hc']

/-- A separator at the head of the scan contributes its bit. -/
theorem filterMap_sep_cons (sep : Char) (b : Bool) (l : List Char)
    (h : isSpaceTab sep = true) (hb : (sep.toNat == 9) = b) :
    (sep :: l).filterMap (fun c => if isSpaceTab c then some (c.toNat == 9) else none) =
      b :: l.filterMap (fun c => if isSpaceTab c then some (c.toNat == 9) else none) := by
  simp [List.filterMap_cons, h, hb]

/-- Bits recovered from a bit-encoded join: the embedded bits (up to the gap
count), padded with zero bits for the remaining plain-space gaps. -/
theorem join_with_bits_filter (ws : List (List Char)) :
    ∀ bits : List Bool,
      (∀ w ∈ ws, ∀ c ∈ w, isSpaceTab c = false) →
      (join_with_bits ws bits).filterMap
          (fun c => if isSpaceTab c then some (c.toNat == 9) else none) =
        bits.take (ws.length - 1) ++ List.replicate (ws.length - 1 - bits.length) false := by
  induction ws with
  | nil => intro bits _; simp [join_with_bits]
  | cons w ws ih =>
    cases ws with
    | nil =>
      intro bits h
      have hw : join_with_bits [w] bits = w := rfl
      rw [hw, filterMap_none _ w (fun c hc => by simp [h w (by simp) c hc])]
      simp
    | cons w2 ws =>
      intro bits h
      have hj : join_with_bits (w :: w2 :: ws) bits =
          w ++ (if bits.headD false then '\t' else ' ') ::
            join_with_bits (w2 :: ws) (bits.drop 1) :=
        rfl
      rw [hj, List.filterMap_append,
        filterMap_none _ w (fun c hc => by simp [h w (by simp) c hc]),
        List.nil_append]
      have hrec := ih (bits.drop 1) (fun x hx c hc => h x (by simp [hx]) c hc)
      cases bits with
      | nil =>
        rw [show ((if ([] : List Bool).headD false then '\t' else ' ')) = ' ' from rfl,
          filterMap_sep_cons ' ' false _ (by decide) (by decide), hrec]
        simp [List.replicate_succ]
      | cons b bs =>
        rw [show ((if ((b :: bs) : List Bool).headD false then '\t' else ' ')) =
          (if b then '\t' else ' ') from rfl]
        cases b with
        | false =>
          rw [if_neg (by decide), filterMap_sep_cons ' ' false _ (by decide) (by decide), hrec]
          simp [Nat.succ_sub_succ, List.take_succ_cons]
        | true =>
          rw [if_pos rfl, filterMap_sep_cons '\t' true _ (by decide) (by decide), hrec]
          simp [Nat.succ_sub_succ, List.take_succ_cons]

/-- The extension loop only appends elements drawn from the current list, so
any pointwise property of the words is preserved. -/
theorem extendFuel_forall (Q : List Char → Prop) :
    ∀ (f n : Nat) (words : List (List Char)) (t : Nat),
      0 < n → n ≤ words.length → (∀ w ∈ words, Q w) →
      ∀ w ∈ extendFuel f n words t, Q w := by
  intro f
  induction f with
  | zero => intro n words t _ _ hQ; exact hQ
  | succ f ih =>
    intro n words t hn hle hQ
    by_cases h : words.length - 1 < t
    · rw [show extendFuel (f + 1) n words t =
        extendFuel f n (words ++ [words.getD (words.length % n) []]) t from by
          simp [extendFuel, h]]
      refine ih n _ t hn (by simp; omega) ?_
      intro w hw
      rcases List.mem_append.1 hw with hw | hw
      · exact hQ w hw
      · have hidx : words.length % n < words.length :=
          lt_of_lt_of_le (Nat.mod_lt _ hn) hle
        rw [List.mem_singleton.1 hw, List.getD_eq_getElem _ _ hidx]
        exact hQ _ (List.getElem_mem hidx)
    · rw [show extendFuel (f + 1) n words t = words from by simp [extendFuel, h]]
      exact hQ

/-- The original words are a prefix of the extended list. -/
theorem extendFuel_prefix : ∀ (f n : Nat) (words : List (List Char)) (t : Nat),
    words <+: extendFuel f n words t := by
  intro f
  induction f with
  | zero => intro n words t; exact List.prefix_refl _
  | succ f ih =>
    intro n words t
    by_cases h : words.length - 1 < t
    · rw [show extendFuel (f + 1) n words t =
        extendFuel f n (words ++ [words.getD (words.length % n) []]) t from by
          simp [extendFuel, h]]
      exact (List.prefix_append _ _).trans (ih n _ t)
    · rw [show extendFuel (f + 1) n words t = words from by simp [extendFuel, h]]

/-- With enough fuel the extension loop reaches its target gap count. -/
theorem extendFuel_length : ∀ (f n : Nat) (words : List (List Char)) (t : Nat),
    0 < words.length → t + 1 ≤ words.length + f →
    t < (extendFuel f n words t).length := by
  intro f
  induction f with
  | zero =>
    intro n words t h0 hf
    rw [show extendFuel 0 n words t = words from rfl]
    omega
  | succ f ih =>
    intro n words t h0 hf
    by_cases h : words.length - 1 < t
    · rw [show extendFuel (f + 1) n words t =
        extendFuel f n (words ++ [words.getD (words.length % n) []]) t from by
          simp [extendFuel, h]]
      refine ih n _ t (by simp) (by simp; omega)
    · rw [show extendFuel (f + 1) n words t = words from by simp [extendFuel, h]]
      omega

/-- **C1** Whitespace round-trip: for every cover text with at least one word
and every payload of nonzero bytes, extracting from the embedding returns the
payload. -/
theorem whitespace_round_trip (cover : List Char) (msg : List Nat)
    (hc : py_split cover ≠ []) (hm : ∀ b ∈ msg, 0 < b ∧ b < 256) :
    (embed_whitespace cover msg).map extract_whitespace = some msg := by
  have hwne : ¬((py_split cover).isEmpty = true) := by
    intro h'
    exact hc (List.isEmpty_iff.1 h')
  have h0 : 0 < (py_split cover).length := by
    rcases hl : py_split cover with _ | _
    · exact absurd hl hc
    · simp
  have hemb : embed_whitespace cover msg = some (join_with_bits
      (extend_words (py_split cover).length (py_split cover)
        (message_to_bits msg).length)
      (message_to_bits msg)) := by
    unfold embed_whitespace
    rw [if_neg hwne]
  have hclean : ∀ w ∈ extend_words (py_split cover).length (py_split cover)
      (message_to_bits msg).length, w ≠ [] ∧ ∀ c ∈ w, isSpaceTab c = false := by
    unfold extend_words
    refine extendFuel_forall _ _ _ _ _ h0 le_rfl ?_
    intro w hw
    obtain ⟨hne, hcl⟩ := py_split_clean cover w hw
    exact ⟨hne, fun c hcm => isSpaceTab_false_of_pyWS c (hcl c hcm)⟩
  have hlen : (message_to_bits msg).length <
      (extend_words (py_split cover).length (py_split cover)
        (message_to_bits msg).length).length := by
    unfold extend_words
    exact extendFuel_length _ _ _ _ h0 (by omega)
  rw [hemb]
  show some (extract_whitespace _) = some msg
  refine congrArg some ?_
  unfold extract_whitespace ws_bits ws_parts
  rw [wsScan_filterMap _ [] (by simp),
    join_with_bits_filter _ _ (fun w hw => (hclean w hw).2),
    List.take_of_length_le (by omega)]
  have hsplit : message_to_bits msg ++
      List.replicate ((extend_words (py_split cover).length (py_split cover)
        (message_to_bits msg).length).length - 1 - (message_to_bits msg).length) false =
      msg.flatMap format08b ++ (List.replicate 8 false ++
        List.replicate ((extend_words (py_split cover).length (py_split cover)
          (message_to_bits msg).length).length - 1 - (message_to_bits msg).length) false) := by
    simp [message_to_bits]
  rw [hsplit]
  exact decode_flatMap msg _ hm

/-- Witness for C1 at a concrete cover and payload. -/
theorem whitespace_round_trip_witness :
    (embed_whitespace (chars "hello world") [72]).map extract_whitespace = some [72] :=
  whitespace_round_trip (chars "hello world") [72] (by decide) (by decide)

/-- **C9** Implicit: embedding with the whitespace method into a cover without
words does not produce a string — the word-extension step divides by the zero
word count and the call fails (`ZeroDivisionError`). -/
theorem whitespace_embed_empty_cover (cover : List Char) (msg : List Nat)
    (h : py_split cover = []) :
    embed_message cover msg "whitespace" = .error .zeroDivision := by
  unfold embed_message
  rw [if_pos rfl]
  have hw : embed_whitespace cover msg = none := by
    unfold embed_whitespace
    simp [h]
  rw [hw]

/-- Witness for C9 on a whitespace-only cover. -/
theorem whitespace_embed_empty_cover_witness :
    embed_message (chars "  ") [72] "whitespace" = .error .zeroDivision :=
  whitespace_embed_empty_cover (chars "  ") [72] (by decide)

/-- **C10** Implicit frame property: the whitespace embedding never alters word
content — splitting the stego text on space/tab gives back the original words
as a prefix, followed only by copies of original words. -/
theorem whitespace_frame (cover : List Char) (msg : List Nat)
    (hc : py_split cover ≠ []) :
    ∃ t, embed_whitespace cover msg = some t ∧
      (split_space_tab t).take (py_split cover).length = py_split cover ∧
      ∀ w ∈ (split_space_tab t).drop (py_split cover).length, w ∈ py_split cover := by
  have hwne : ¬((py_split cover).isEmpty = true) := by
    intro h'
    exact hc (List.isEmpty_iff.1 h')
  have h0 : 0 < (py_split cover).length := by
    rcases hl : py_split cover with _ | _
    · exact absurd hl hc
    · simp
  have hclean : ∀ w ∈ extend_words (py_split cover).length (py_split cover)
      (message_to_bits msg).length, w ≠ [] ∧ ∀ c ∈ w, isSpaceTab c = false := by
    unfold extend_words
    refine extendFuel_forall _ _ _ _ _ h0 le_rfl ?_
    intro w hw
    obtain ⟨hne, hcl⟩ := py_split_clean cover w hw
    exact ⟨hne, fun c hcm => isSpaceTab_false_of_pyWS c (hcl c hcm)⟩
  have hmem : ∀ w ∈ extend_words (py_split cover).length (py_split cover)
      (message_to_bits msg).length, w ∈ py_split cover := by
    unfold extend_words
    exact extendFuel_forall _ _ _ _ _ h0 le_rfl (fun w hw => hw)
  obtain ⟨extra, hex⟩ := extendFuel_prefix ((message_to_bits msg).length + 1)
    (py_split cover).length (py_split cover) (message_to_bits msg).length
  have hsplit : split_space_tab (join_with_bits
      (extend_words (py_split cover).length (py_split cover)
        (message_to_bits msg).length) (message_to_bits msg)) =
      extend_words (py_split cover).length (py_split cover)
        (message_to_bits msg).length :=
    splitAux_join_with_bits isSpaceTab (by decide) (by decide) _ _ hclean
  refine ⟨_, by unfold embed_whitespace; rw [if_neg hwne], ?_, ?_⟩
  · rw [hsplit]
    unfold extend_words
    rw [← hex, List.take_left]
  · intro w hw
    rw [hsplit] at hw
    exact hmem w (List.drop_subset _ _ hw)

/-- Witness for C10 at a concrete cover and payload. -/
theorem whitespace_frame_witness :
    ∃ t, embed_whitespace (chars "ab cd") [5] = some t ∧
      (split_space_tab t).take (py_split (chars "ab cd")).length =
        py_split (chars "ab cd") ∧
      ∀ w ∈ (split_space_tab t).drop (py_split (chars "ab cd")).length,
        w ∈ py_split (chars "ab cd") :=
  whitespace_frame (chars "ab cd") [5] (by decide)

/-! ## Dispatcher and recommender claims -/

/-- **C7** Unsupported method: for every method string outside
`{"whitespace", "synonym", "binary"}` both dispatchers fail with the
unsupported-method error on all inputs, and for the three supported literals
they never produce that error. -/
theorem unsupported_method (method : String) (cover : List Char) (msg : List Nat)
    (stego : List Char) :
    ((method ≠ "whitespace" ∧ method ≠ "synonym" ∧ method ≠ "binary") →
      embed_message cover msg method = .error (.unsupportedMethod method) ∧
      extract_message stego method = .error (.unsupportedMethod method)) ∧
    ((method = "whitespace" ∨ method = "synonym" ∨ method = "binary") →
      (∀ e, embed_message cover msg method ≠ .error (.unsupportedMethod e)) ∧
      (∀ e, extract_message stego method ≠ .error (.unsupportedMethod e))) := by
  constructor
  · rintro ⟨h1, h2, h3⟩
    unfold embed_message extract_message
    rw [if_neg h1, if_neg h2, if_neg h3, if_neg h1, if_neg h2, if_neg h3]
    exact ⟨rfl, rfl⟩
  · intro h
    constructor
    · intro e hcontra
      unfold embed_message at hcontra
      rcases h with rfl | rfl | rfl
      · rw [if_pos rfl] at hcontra
        rcases hw : embed_whitespace cover msg with _ | t <;> rw [hw] at hcontra <;>
          simp at hcontra
      · rw [if_neg (by decide), if_pos rfl] at hcontra
        simp at hcontra
      · rw [if_neg (by decide), if_neg (by decide), if_pos rfl] at hcontra
        simp at hcontra
    · intro e hcontra
      unfold extract_message at hcontra
      rcases h with rfl | rfl | rfl
      · rw [if_pos rfl] at hcontra
        simp at hcontra
      · rw [if_neg (by decide), if_pos rfl] at hcontra
        simp at hcontra
      · rw [if_neg (by decide), if_neg (by decide), if_pos rfl] at hcontra
        simp at hcontra

/-- Witness for C7 at the method `"rot13"` and at a supported method. -/
theorem unsupported_method_witness :
    (embed_message (chars "a b") [72] "rot13" = .error (.unsupportedMethod "rot13") ∧
      extract_message (chars "a b") "rot13" = .error (.unsupportedMethod "rot13")) ∧
    (∀ e, embed_message (chars "a b") [72] "whitespace" ≠
      .error (.unsupportedMethod e)) :=
  ⟨(unsupported_method "rot13" (chars "a b") [72] (chars "a b")).1 (by decide),
    ((unsupported_method "whitespace" (chars "a b") [72] (chars "a b")).2
      (Or.inl rfl)).1⟩

/-- **C8** Recommender thresholds and rule order: fewer than 30 words gives
`whitespace` with confidence 0.95 (the first rule wins); more than 200 words
and 1000 characters with function-word count at most 0.4 of the word count and
complexity at most 0.8 gives `binary` with confidence 0.8. -/
theorem recommender_thresholds (text : List Char) :
    ((py_split text).length < 30 →
      (analyze_text_for_steganography text).recommended_method = "whitespace" ∧
      (analyze_text_for_steganography text).confidence = 0.95) ∧
    (200 < (py_split text).length → 1000 < text.length →
      ((analyze_text_for_steganography text).synonym_word_count : ℚ) ≤
        ((py_split text).length : ℚ) * 0.4 →
      (analyze_text_for_steganography text).complexity ≤ 0.8 →
      (analyze_text_for_steganography text).recommended_method = "binary" ∧
      (analyze_text_for_steganography text).confidence = 0.8) := by
  constructor
  · intro h
    unfold analyze_text_for_steganography
    simp only []
    rw [if_pos h]
    exact ⟨rfl, rfl⟩
  · intro h1 h2 h3 h4
    unfold analyze_text_for_steganography at h3 h4 ⊢
    simp only [] at h3 h4 ⊢
    rw [if_neg (by omega), if_neg (not_lt.2 h3), if_neg (not_lt.2 h4),
      if_pos ⟨h1, h2⟩]
    exact ⟨rfl, rfl⟩

set_option maxRecDepth 200000 in
/-- Witness for C8: a 10-word text and a 201-word, 1004-character text. -/
theorem recommender_thresholds_witness :
    ((analyze_text_for_steganography
        (chars "one two three four five six seven eight nine ten")).recommended_method =
      "whitespace" ∧
      (analyze_text_for_steganography
        (chars "one two three four five six seven eight nine ten")).confidence = 0.95) ∧
    ((analyze_text_for_steganography
        (joinSpace (List.replicate 201 (chars "abcd")))).recommended_method = "binary" ∧
      (analyze_text_for_steganography
        (joinSpace (List.replicate 201 (chars "abcd")))).confidence = 0.8) := by
  constructor
  · exact (recommender_thresholds _).1 (by decide)
  · refine (recommender_thresholds _).2 (by decide) (by decide) ?_ ?_
    · have hsyn : (analyze_text_for_steganography
          (joinSpace (List.replicate 201 (chars "abcd")))).synonym_word_count = 0 := by
        decide
      have hwc : (py_split (joinSpace (List.replicate 201 (chars "abcd")))).length = 201 := by
        decide
      rw [hsyn, hwc]
      norm_num
    · have hcomp : (analyze_text_for_steganography
          (joinSpace (List.replicate 201 (chars "abcd")))).complexity =
          complexity_score (joinSpace (List.replicate 201 (chars "abcd"))) := rfl
      rw [hcomp]
      simp only [complexity_score]
      rw [if_neg (by decide)]
      rw [show ((py_split (joinSpace (List.replicate 201 (chars "abcd")))).map
        List.length).sum = 804 from by decide]
      rw [show (py_split (joinSpace (List.replicate 201 (chars "abcd")))).length = 201 from by
        decide]
      rw [show ((py_split (joinSpace (List.replicate 201 (chars "abcd")))).map
        lowerStr).dedup.length = 1 from by decide]
      rw [min_def]
      norm_num

/-! ## No-terminator behaviour (C6) -/

/-- **C6 (amended)** If the bit string recovered from a text contains no
all-zero aligned 8-bit group, extraction still succeeds: it returns the
best-effort decode of all complete 8-bit groups — in particular the empty
string when fewer than 8 bits are recovered — rather than an error. -/
theorem extract_no_terminator (stego : List Char) (method : String)
    (hm : method = "whitespace" ∨ method = "synonym" ∨ method = "binary")
    (h : ∀ g ∈ chunks8 (recovered_bits stego method), g ≠ List.replicate 8 false) :
    extract_message stego method =
      .ok ((chunks8 (recovered_bits stego method)).map bitsToByte) ∧
    ((recovered_bits stego method).length < 8 →
      extract_message stego method = .ok []) := by
  have hdec : bits_to_message (recovered_bits stego method) =
      (chunks8 (recovered_bits stego method)).map bitsToByte := by
    unfold bits_to_message
    unfold chunks8 at h ⊢
    exact fromBitsFuel_no_zero_chunk _ _ h
  have hex : extract_message stego method =
      .ok (bits_to_message (recovered_bits stego method)) := by
    rcases hm with rfl | rfl | rfl
    · unfold extract_message recovered_bits extract_whitespace
      rw [if_pos rfl, if_pos rfl]
    · unfold extract_message recovered_bits extract_synonym
      rw [if_neg (by decide), if_pos rfl, if_neg (by decide), if_pos rfl]
    · unfold extract_message recovered_bits extract_binary
      rw [if_neg (by decide), if_neg (by decide), if_pos rfl,
        if_neg (by decide), if_neg (by decide), if_pos rfl]
  refine ⟨by rw [hex, hdec], ?_⟩
  intro hlen
  rw [hex]
  unfold bits_to_message
  rw [fromBitsFuel_short _ _ hlen]

/-- Counterexample to C6 as stated: a whitespace-method stego text whose
recovered bit string has no all-zero 8-bit group, on which extraction returns
the nonempty message `[0x80]`, not the empty string. -/
theorem extract_no_terminator_cex :
    (∀ g ∈ chunks8 (recovered_bits (chars "a\tb c d e f g h i") "whitespace"),
      g ≠ List.replicate 8 false) ∧
    extract_message (chars "a\tb c d e f g h i") "whitespace" ≠ .ok [] := by
  constructor
  · decide
  · decide

/-- Witness for the amended C6 at a concrete stego text. -/
theorem extract_no_terminator_witness :
    extract_message (chars "a\tb c d e f g h i") "whitespace" =
      .ok ((chunks8 (recovered_bits (chars "a\tb c d e f g h i") "whitespace")).map
        bitsToByte) :=
  (extract_no_terminator (chars "a\tb c d e f g h i") "whitespace"
    (Or.inl rfl) (by decide)).1

/-! ## Capitalization method (C3) -/

/-- `isAlpha` via code points. -/
theorem isAlpha_iff (c : Char) :
    isAlpha c = true ↔ (65 ≤ c.toNat ∧ c.toNat ≤ 90) ∨ (97 ≤ c.toNat ∧ c.toNat ≤ 122) := by
  simp [isAlpha]

/-- `isUpper` via code points. -/
theorem isUpper_iff (c : Char) :
    isUpper c = true ↔ 65 ≤ c.toNat ∧ c.toNat ≤ 90 := by
  simp [isUpper]

/-- `toLower` of an alphabetic character lands in the lowercase range. -/
theorem toLower_az (c : Char) (h : isAlpha c = true) :
    97 ≤ (toLower c).toNat ∧ (toLower c).toNat ≤ 122 := by
  have ht := toLower_toNat c
  rw [isAlpha_iff] at h
  rcases h with h | h
  · rw [ht, if_pos h]; omega
  · rw [ht, if_neg (by omega)]; omega

/-- `toUpper` of an alphabetic character lands in the uppercase range. -/
theorem toUpper_AZ (c : Char) (h : isAlpha c = true) :
    65 ≤ (toUpper c).toNat ∧ (toUpper c).toNat ≤ 90 := by
  have ht := toUpper_toNat c
  rw [isAlpha_iff] at h
  rcases h with h | h
  · rw [ht, if_neg (by omega)]; omega
  · rw [ht, if_pos h]; omega

/-- Lowercase-range characters are alphabetic. -/
theorem isAlpha_of_az (c : Char) (h : 97 ≤ c.toNat ∧ c.toNat ≤ 122) :
    isAlpha c = true := by
  rw [isAlpha_iff]; right; exact h

/-- Uppercase-range characters are alphabetic. -/
theorem isAlpha_of_AZ (c : Char) (h : 65 ≤ c.toNat ∧ c.toNat ≤ 90) :
    isAlpha c = true := by
  rw [isAlpha_iff]; left; exact h

/-- Characters outside the uppercase range are not uppercase. -/
theorem isUpper_false_of_az (c : Char) (h : 97 ≤ c.toNat) : isUpper c = false := by
  simp [isUpper]
  omega

/-- Every character of the recapitalized alphabetic part is alphabetic. -/
theorem processed_alpha (clean : List Char) (b : Bool)
    (h : ∀ c ∈ clean, isAlpha c = true) :
    ∀ c ∈ (if b then capitalizeFirst clean else clean.map toLower),
      isAlpha c = true := by
  cases b with
  | false =>
    intro c hc
    simp only [if_neg (by decide : ¬(false = true))] at hc
    obtain ⟨d, hd, rfl⟩ := List.mem_map.1 hc
    exact isAlpha_of_az _ (toLower_az d (h d hd))
  | true =>
    intro c hc
    rw [if_pos rfl] at hc
    rcases clean with _ | ⟨d, rest⟩
    · simp [capitalizeFirst] at hc
    · rcases rest with _ | ⟨e, rest⟩
      · simp [capitalizeFirst] at hc
        subst hc
        exact isAlpha_of_AZ _ (toUpper_AZ d (h d (by simp)))
      · rw [show capitalizeFirst (d :: e :: rest) =
          toUpper d :: (e :: rest).map toLower from rfl] at hc
        rcases List.mem_cons.1 hc with rfl | hc
        · exact isAlpha_of_AZ _ (toUpper_AZ d (h d (by simp)))
        · obtain ⟨x, hx, rfl⟩ := List.mem_map.1 hc
          exact isAlpha_of_az _ (toLower_az x (h x (by simp [hx])))

/-- The bit read back from a bit-encoded word is the embedded bit, provided
the word has at least one alphabetic character. -/
theorem binBit_capEncode (w : List Char) (b : Bool)
    (h : w.filter (fun c => isAlpha c) ≠ []) : binBit (capEncode w b) = b := by
  unfold binBit capEncode
  have hfilter : (((if b then capitalizeFirst (w.filter fun c => isAlpha c)
      else (w.filter fun c => isAlpha c).map toLower) ++
        w.filter (fun c => !(isAlpha c))).filter fun c => isAlpha c) =
      (if b then capitalizeFirst (w.filter fun c => isAlpha c)
        else (w.filter fun c => isAlpha c).map toLower) := by
    rw [List.filter_append]
    have h1 : ((if b then capitalizeFirst (w.filter fun c => isAlpha c)
        else (w.filter fun c => isAlpha c).map toLower).filter fun c => isAlpha c) =
        (if b then capitalizeFirst (w.filter fun c => isAlpha c)
          else (w.filter fun c => isAlpha c).map toLower) := by
      rw [List.filter_eq_self]
      exact processed_alpha _ b (fun c hc => (List.mem_filter.1 hc).2)
    have h2 : ((w.filter (fun c => !(isAlpha c))).filter fun c => isAlpha c) = [] := by
      rw [List.filter_eq_nil_iff]
      intro a ha
      have := (List.mem_filter.1 ha).2
      simp at this
      simp [this]
    rw [h1, h2, List.append_nil]
  rw [hfilter]
  rcases hcl : w.filter (fun c => isAlpha c) with _ | ⟨c, rest⟩
  · exact absurd hcl h
  · have hca : isAlpha c = true := (List.mem_filter.1 (hcl ▸ List.mem_cons_self c rest)).2
    cases b with
    | false =>
      rw [if_neg (by decide : ¬(false = true))]
      rw [show (c :: rest).map toLower = toLower c :: rest.map toLower from rfl]
      exact isUpper_false_of_az _ (toLower_az c hca).1
    | true =>
      rw [if_pos rfl]
      rcases rest with _ | ⟨e, rest⟩
      · rw [show capitalizeFirst [c] = [toUpper c] from rfl]
        exact isUpper_iff _ |>.2 (toUpper_AZ c hca)
      · rw [show capitalizeFirst (c :: e :: rest) =
          toUpper c :: (e :: rest).map toLower from rfl]
        exact isUpper_iff _ |>.2 (toUpper_AZ c hca)

/-- Bits read back from the encoded word list: the embedded bits followed by
the bits of the untouched remaining words. -/
theorem encBinWords_bits : ∀ (bits : List Bool) (ws : List (List Char)),
    (∀ w ∈ ws, w.filter (fun c => isAlpha c) ≠ []) →
    (encBinWords ws bits).map binBit = bits ++ (ws.drop bits.length).map binBit := by
  intro bits
  induction bits with
  | nil => intro ws _; simp [encBinWords]
  | cons b bs ih =>
    intro ws h
    cases ws with
    | nil =>
      have hd : binBit (dummyBin b) = b := by cases b <;> decide
      rw [show encBinWords [] (b :: bs) = dummyBin b :: encBinWords [] bs from rfl]
      rw [List.map_cons, hd, ih [] (by simp)]
      simp
    | cons w ws =>
      rw [show encBinWords (w :: ws) (b :: bs) = capEncode w b :: encBinWords ws bs from rfl]
      rw [List.map_cons, binBit_capEncode w b (h w (by simp)),
        ih ws (fun x hx => h x (by simp [hx]))]
      simp

/-- Tokens produced by the capitalization embedding are nonempty and free of
Python whitespace. -/
theorem encBinWords_clean : ∀ (bits : List Bool) (ws : List (List Char)),
    (∀ w ∈ ws, w ≠ [] ∧ (∀ c ∈ w, pyWS c = false) ∧
      w.filter (fun c => isAlpha c) ≠ []) →
    ∀ t ∈ encBinWords ws bits, t ≠ [] ∧ ∀ c ∈ t, pyWS c = false := by
  intro bits
  induction bits with
  | nil =>
    intro ws h t ht
    rw [show encBinWords ws [] = ws from by simp [encBinWords]] at ht
    exact ⟨(h t ht).1, (h t ht).2.1⟩
  | cons b bs ih =>
    intro ws h t ht
    cases ws with
    | nil =>
      rw [show encBinWords [] (b :: bs) = dummyBin b :: encBinWords [] bs from rfl] at ht
      rcases List.mem_cons.1 ht with rfl | ht
      · cases b <;> exact ⟨by decide, by decide⟩
      · exact ih [] (by simp) t ht
    | cons w ws =>
      rw [show encBinWords (w :: ws) (b :: bs) =
        capEncode w b :: encBinWords ws bs from rfl] at ht
      rcases List.mem_cons.1 ht with rfl | ht
      · obtain ⟨hne, hws, hcl⟩ := h w (by simp)
        constructor
        · unfold capEncode
          intro hcontra
          rcases List.append_eq_nil.1 hcontra with ⟨h1, _⟩
          rcases hclr : w.filter (fun c => isAlpha c) with _ | ⟨c, rest⟩
          · exact hcl hclr
          · rw [hclr] at h1
            cases b with
            | false => simp at h1
            | true =>
              rcases rest with _ | ⟨e, rest⟩ <;> simp [capitalizeFirst] at h1
        · unfold capEncode
          intro c hc
          rcases List.mem_append.1 hc with hc | hc
          · have halpha : isAlpha c = true := by
              refine processed_alpha _ b ?_ c hc
              exact fun d hd => (List.mem_filter.1 hd).2
            rw [isAlpha_iff] at halpha
            exact pyWS_false_of_ge c (by omega)
          · exact hws c (List.mem_filter.1 hc).1
      · exact ih ws (fun x hx => h x (by simp [hx])) t ht

/-- `' '.join` is the bit join with no bits. -/
theorem joinSpace_eq_join_with_bits : ∀ toks : List (List Char),
    joinSpace toks = join_with_bits toks [] := by
  intro toks
  induction toks with
  | nil => rfl
  | cons w ws ih =>
    cases ws with
    | nil => rfl
    | cons w2 ws =>
      rw [show joinSpace (w :: w2 :: ws) = w ++ ' ' :: joinSpace (w2 :: ws) from rfl, ih]
      rfl

/-- Splitting the space-join of nonempty whitespace-free tokens returns the
tokens. -/
theorem py_split_joinSpace (toks : List (List Char))
    (h : ∀ t ∈ toks, t ≠ [] ∧ ∀ c ∈ t, pyWS c = false) :
    py_split (joinSpace toks) = toks := by
  rw [joinSpace_eq_join_with_bits]
  exact splitAux_join_with_bits pyWS (by decide) (by decide) toks [] h

/-- **C3** Capitalization ("binary") round-trip: for every cover text in which
every word contains at least one alphabetic character and every payload of
nonzero bytes, extracting from the embedding returns the payload. -/
theorem binary_round_trip (cover : List Char) (msg : List Nat)
    (hc : ∀ w ∈ py_split cover, w.filter (fun c => isAlpha c) ≠ [])
    (hm : ∀ b ∈ msg, 0 < b ∧ b < 256) :
    extract_binary (embed_binary cover msg) = msg := by
  unfold embed_binary extract_binary bin_bits
  have hwords := py_split_clean cover
  have hall : ∀ w ∈ py_split cover, w ≠ [] ∧ (∀ c ∈ w, pyWS c = false) ∧
      w.filter (fun c => isAlpha c) ≠ [] :=
    fun w hw => ⟨(hwords w hw).1, (hwords w hw).2, hc w hw⟩
  rw [py_split_joinSpace _ (encBinWords_clean _ _ hall)]
  rw [encBinWords_bits _ _ hc]
  rw [show message_to_bits msg ++
      ((py_split cover).drop (message_to_bits msg).length).map binBit =
      msg.flatMap format08b ++ (List.replicate 8 false ++
        ((py_split cover).drop (message_to_bits msg).length).map binBit) from by
    simp [message_to_bits]]
  exact decode_flatMap msg _ hm

/-- Witness for C3 at a concrete cover and payload. -/
theorem binary_round_trip_witness :
    extract_binary (embed_binary (chars "hello world foo") [72, 105]) = [72, 105] :=
  binary_round_trip (chars "hello world foo") [72, 105] (by decide) (by decide)

/-! ## Synonym method (C4) -/

/-- Facts about the punctuation class: its characters are outside the
lowercase range, fixed by `toLower`, and not whitespace. -/
theorem PUNCT_chars : ∀ c ∈ PUNCT,
    (c.toNat < 97 ∨ 122 < c.toNat) ∧ toLower c = c ∧ pyWS c = false := by decide

/-- `isPunct` means membership in the class. -/
theorem mem_PUNCT (c : Char) (h : isPunct c = true) : c ∈ PUNCT := by
  unfold isPunct at h
  simpa using h

/-- Lowercase letters are not punctuation. -/
theorem az_not_punct (c : Char) (h : 97 ≤ c.toNat ∧ c.toNat ≤ 122) :
    isPunct c = false := by
  by_cases hp : isPunct c = true
  · have := (PUNCT_chars c (mem_PUNCT c hp)).1
    omega
  · simpa using hp

/-- Punctuation is fixed by `toLower`. -/
theorem toLower_punct (c : Char) (h : isPunct c = true) : toLower c = c :=
  (PUNCT_chars c (mem_PUNCT c h)).2.1

/-- `dropWhile` leaves a list whose elements all fail the predicate. -/
theorem dropWhile_none {α : Type} (p : α → Bool) (l : List α)
    (h : ∀ x ∈ l, p x = false) : List.dropWhile p l = l := by
  cases l with
  | nil => rfl
  | cons x xs => rw [List.dropWhile_cons, if_neg (by simp [h x (by simp)])]

/-- `dropWhile` consumes a prefix whose elements all satisfy the predicate. -/
theorem dropWhile_all_append {α : Type} (p : α → Bool) (xs ys : List α)
    (h : ∀ x ∈ xs, p x = true) :
    List.dropWhile p (xs ++ ys) = List.dropWhile p ys := by
  induction xs with
  | nil => simp
  | cons x xs ih =>
    rw [List.cons_append, List.dropWhile_cons, if_pos (by simp [h x (by simp)])]
    exact ih (fun y hy => h y (by simp [hy]))

/-- Stripping punctuation from a punctuation-free word followed by punctuation
recovers the word. -/
theorem stripChars_sandwich (s p' : List Char) (hs : s ≠ [])
    (hsna : ∀ c ∈ s, isPunct c = false) (hp : ∀ c ∈ p', isPunct c = true) :
    stripChars (s ++ p') = s := by
  unfold stripChars
  rcases s with _ | ⟨c, s'⟩
  · exact absurd rfl hs
  · rw [List.cons_append, List.dropWhile_cons, if_neg (by simp [hsna c (by simp)])]
    rw [show ((c :: (s' ++ p')).reverse) = p'.reverse ++ (c :: s').reverse from by
      rw [← List.reverse_append]; rfl]
    rw [dropWhile_all_append _ _ _ (fun x hx => hp x (List.mem_reverse.1 hx))]
    rw [dropWhile_none _ _ (fun x hx => hsna x (List.mem_reverse.1 hx))]
    exact List.reverse_reverse _

/-- `lowerStr` distributes over append. -/
theorem lowerStr_append (a b : List Char) :
    lowerStr (a ++ b) = lowerStr a ++ lowerStr b := by
  unfold lowerStr
  exact List.map_append _ _ _

/-- `lowerStr` fixes all-lowercase words. -/
theorem lowerStr_id_of_az (s : List Char)
    (h : ∀ c ∈ s, 97 ≤ c.toNat ∧ c.toNat ≤ 122) : lowerStr s = s := by
  unfold lowerStr
  have h1 : s.map toLower = s.map (fun c => c) :=
    List.map_congr_left (fun c hc => toLower_of_az c (h c hc))
  rw [h1]
  simp

/-- `lowerStr` fixes punctuation. -/
theorem lowerStr_id_of_punct (s : List Char)
    (h : ∀ c ∈ s, isPunct c = true) : lowerStr s = s := by
  unfold lowerStr
  have h1 : s.map toLower = s.map (fun c => c) :=
    List.map_congr_left (fun c hc => toLower_punct c (h c hc))
  rw [h1]
  simp

/-- Lowercasing a capitalized all-lowercase word recovers the word. -/
theorem lowerStr_capitalizePy (s : List Char)
    (h : ∀ c ∈ s, 97 ≤ c.toNat ∧ c.toNat ≤ 122) :
    lowerStr (capitalizePy s) = s := by
  rcases s with _ | ⟨c, rest⟩
  · rfl
  · show toLower (toUpper c) :: (rest.map toLower).map toLower = c :: rest
    rw [toLower_toUpper c (h c (by simp))]
    congr 1
    rw [List.map_map]
    have h1 : rest.map (toLower ∘ toLower) = rest.map (fun x => x) :=
      List.map_congr_left (fun x hx => by
        have hx' := h x (by simp [hx])
        simp only [Function.comp_apply]
        rw [toLower_of_az x hx', toLower_of_az x hx'])
    rw [h1]
    simp

/-- Characters of a capitalized all-lowercase word are letters. -/
theorem capitalizePy_chars (s : List Char)
    (h : ∀ c ∈ s, 97 ≤ c.toNat ∧ c.toNat ≤ 122) :
    ∀ c ∈ capitalizePy s, 65 ≤ c.toNat ∧ c.toNat ≤ 122 := by
  rcases s with _ | ⟨d, rest⟩
  · simp [capitalizePy]
  · intro c hc
    rw [show capitalizePy (d :: rest) = toUpper d :: rest.map toLower from rfl] at hc
    rcases List.mem_cons.1 hc with rfl | hc
    · have := toUpper_AZ d (isAlpha_of_az d (h d (by simp)))
      omega
    · obtain ⟨x, hx, rfl⟩ := List.mem_map.1 hc
      have := toLower_az x (isAlpha_of_az x (h x (by simp [hx])))
      omega

/-- The cleaned form of an emitted synonym token is the chosen alternative. -/
theorem cleanWord_synToken (s p' : List Char) (cap : Bool) (hs : s ≠ [])
    (haz : ∀ c ∈ s, 97 ≤ c.toNat ∧ c.toNat ≤ 122)
    (hp : ∀ c ∈ p', isPunct c = true) :
    cleanWord ((if cap then capitalizePy s else s) ++ p') = s := by
  unfold cleanWord
  rw [lowerStr_append]
  have hl1 : lowerStr (if cap then capitalizePy s else s) = s := by
    cases cap with
    | false => rw [if_neg (by decide)]; exact lowerStr_id_of_az s haz
    | true => rw [if_pos rfl]; exact lowerStr_capitalizePy s haz
  rw [hl1, lowerStr_id_of_punct p' hp]
  exact stripChars_sandwich s p' hs (fun c hc => az_not_punct c (haz c hc)) hp

/-- Unpacking `decodesAs`. -/
theorem decodesAs_spec (s : List Char) (b : Bool) (h : decodesAs s b = true) :
    s ≠ [] ∧ (∀ c ∈ s, 97 ≤ c.toNat ∧ c.toNat ≤ 122) ∧ synExtractBit s = some b := by
  unfold decodesAs at h
  rw [Bool.and_eq_true, Bool.and_eq_true] at h
  obtain ⟨⟨h1, h2⟩, h3⟩ := h
  refine ⟨?_, ?_, beq_iff_eq.1 h3⟩
  · intro hnil
    subst hnil
    simp at h1
  · intro c hc
    have := List.all_eq_true.1 h2 c hc
    simpa using this

/-- The emitted token for a decodable alternative: nonempty, whitespace-free,
and cleaned back to the alternative. -/
theorem synEncodeWord_spec (w : List Char) (options : List (List Char)) (b : Bool)
    (hw : ∀ c ∈ w, pyWS c = false)
    (hlen : 1 < options.length)
    (hs : decodesAs (if b then options.getD 1 [] else options.getD 0 []) b = true) :
    synEncodeWord w options b ≠ [] ∧
    (∀ c ∈ synEncodeWord w options b, pyWS c = false) ∧
    synExtractBit (cleanWord (synEncodeWord w options b)) = some b := by
  obtain ⟨hne, haz, hbit⟩ := decodesAs_spec _ b hs
  have hsyn : (if b then (if 1 < options.length then options.getD 1 []
      else options.getD 0 []) else options.getD 0 []) =
      (if b then options.getD 1 [] else options.getD 0 []) := by
    cases b
    · rfl
    · simp only [if_pos rfl, if_pos hlen]
  have htok : synEncodeWord w options b =
      (if isCap w then capitalizePy (if b then options.getD 1 []
        else options.getD 0 []) else (if b then options.getD 1 []
        else options.getD 0 [])) ++ w.filter isPunct := by
    unfold synEncodeWord
    rw [hsyn]
  have hpun : ∀ c ∈ w.filter isPunct, isPunct c = true :=
    fun c hc => (List.mem_filter.1 hc).2
  have hclean : cleanWord (synEncodeWord w options b) =
      (if b then options.getD 1 [] else options.getD 0 []) := by
    rw [htok]
    exact cleanWord_synToken _ _ (isCap w) hne haz hpun
  refine ⟨?_, ?_, by rw [hclean]; exact hbit⟩
  · rw [htok]
    intro hcontra
    rcases List.append_eq_nil.1 hcontra with ⟨h1, _⟩
    cases hcap : isCap w with
    | false =>
      rw [hcap] at h1
      rw [if_neg (by decide)] at h1
      exact hne h1
    | true =>
      rw [hcap, if_pos rfl] at h1
      rcases hsx : (if b then options.getD 1 [] else options.getD 0 []) with _ | ⟨c, rest⟩
      · exact hne hsx
      · rw [hsx] at h1
        simp [capitalizePy] at h1
  · rw [htok]
    intro c hc
    rcases List.mem_append.1 hc with hc | hc
    · cases hcap : isCap w with
      | false =>
        rw [hcap, if_neg (by decide)] at hc
        exact pyWS_false_of_ge c (by have := haz c hc; omega)
      | true =>
        rw [hcap, if_pos rfl] at hc
        exact pyWS_false_of_ge c (by have := capitalizePy_chars _ haz c hc; omega)
    · exact hw c (List.mem_filter.1 hc).1

/-- The synonym word loop: when every word is a reliable key or a neutral word
and the reliable keys outnumber the bits, all bits are consumed, all emitted
tokens are clean, and extraction reads the bits back (possibly followed by
junk bits from leftover key words). -/
theorem embSynWords_spec : ∀ (ws : List (List Char)) (bits : List Bool),
    (∀ w ∈ ws, w ≠ [] ∧ (∀ c ∈ w, pyWS c = false) ∧
      (goodKeyWord (cleanWord w) = true ∨ neutralWord (cleanWord w) = true)) →
    bits.length ≤ (ws.filter
      (fun w => (synTable.lookup (cleanWord w)).isSome)).length →
    (embSynWords ws bits).2 = [] ∧
    (∀ t ∈ (embSynWords ws bits).1, t ≠ [] ∧ ∀ c ∈ t, pyWS c = false) ∧
    ∃ junk, ((embSynWords ws bits).1).filterMap
      (fun t => synExtractBit (cleanWord t)) = bits ++ junk := by
  intro ws
  induction ws with
  | nil =>
    intro bits _ hcount
    simp only [List.filter_nil, List.length_nil, Nat.le_zero] at hcount
    have hbits : bits = [] := List.length_eq_zero.1 hcount
    subst hbits
    exact ⟨rfl, by simp [embSynWords], ⟨[], by simp [embSynWords]⟩⟩
  | cons w ws ih =>
    intro bits hws hcount
    obtain ⟨hne, hclw, hgood⟩ := hws w (by simp)
    rcases hlk : synTable.lookup (cleanWord w) with _ | options
    · have hneu : neutralWord (cleanWord w) = true := by
        rcases hgood with hg | hn
        · exfalso
          unfold goodKeyWord at hg
          rw [hlk] at hg
          exact Bool.noConfusion hg
        · exact hn
      have hnobit : synExtractBit (cleanWord w) = none := by
        unfold neutralWord at hneu
        rw [Bool.and_eq_true] at hneu
        exact Option.isNone_iff_eq_none.1 hneu.2
      have hstep : embSynWords (w :: ws) bits =
          (w :: (embSynWords ws bits).1, (embSynWords ws bits).2) := by
        simp [embSynWords, hlk]
      have hcount' : bits.length ≤ (ws.filter
          (fun w => (synTable.lookup (cleanWord w)).isSome)).length := by
        rw [List.filter_cons, hlk] at hcount
        simpa using hcount
      obtain ⟨h2, h3, junk, h4⟩ := ih bits (fun x hx => hws x (by simp [hx])) hcount'
      rw [hstep]
      refine ⟨h2, ?_, ⟨junk, ?_⟩⟩
      · intro t ht
        rcases List.mem_cons.1 ht with rfl | ht
        · exact ⟨hne, hclw⟩
        · exact h3 t ht
      · simp only [List.filterMap_cons, hnobit]
        exact h4
    · have hg : goodKeyWord (cleanWord w) = true := by
        rcases hgood with hg | hn
        · exact hg
        · exfalso
          unfold neutralWord at hn
          rw [hlk] at hn
          simp at hn
      unfold goodKeyWord at hg
      rw [hlk, Bool.and_eq_true, Bool.and_eq_true] at hg
      obtain ⟨⟨hlen', hd0⟩, hd1⟩ := hg
      have hlen : 1 < options.length := of_decide_eq_true hlen'
      cases bits with
      | nil =>
        have hstep : embSynWords (w :: ws) [] =
            (w :: (embSynWords ws []).1, (embSynWords ws []).2) := by
          simp [embSynWords, hlk]
        obtain ⟨h2, h3, _junk, _h4⟩ := ih [] (fun x hx => hws x (by simp [hx])) (by simp)
        rw [hstep]
        refine ⟨h2, ?_, ?_⟩
        · intro t ht
          rcases List.mem_cons.1 ht with rfl | ht
          · exact ⟨hne, hclw⟩
          · exact h3 t ht
        · exact ⟨(w :: (embSynWords ws []).1).filterMap
            (fun t => synExtractBit (cleanWord t)), by simp⟩
      | cons b bs =>
        have hstep : embSynWords (w :: ws) (b :: bs) =
            (synEncodeWord w options b :: (embSynWords ws bs).1,
              (embSynWords ws bs).2) := by
          simp [embSynWords, hlk]
        have hcount' : bs.length ≤ (ws.filter
            (fun w => (synTable.lookup (cleanWord w)).isSome)).length := by
          rw [List.filter_cons, hlk] at hcount
          simp at hcount
          omega
        obtain ⟨h2, h3, junk, h4⟩ := ih bs (fun x hx => hws x (by simp [hx])) hcount'
        have hds : decodesAs (if b then options.getD 1 []
            else options.getD 0 []) b = true := by
          cases b
          · exact hd0
          · exact hd1
        obtain ⟨htne, htws, htbit⟩ := synEncodeWord_spec w options b hclw hlen hds
        rw [hstep]
        refine ⟨h2, ?_, ⟨junk, ?_⟩⟩
        · intro t ht
          rcases List.mem_cons.1 ht with rfl | ht
          · exact ⟨htne, htws⟩
          · exact h3 t ht
        · rw [show ((synEncodeWord w options b :: (embSynWords ws bs).1).filterMap
            (fun t => synExtractBit (cleanWord t))) =
            b :: ((embSynWords ws bs).1.filterMap
              (fun t => synExtractBit (cleanWord t))) from by
              simp [List.filterMap_cons, htbit]]
          rw [h4]
          rfl

/-- Length of the serialized bit string. -/
theorem length_message_to_bits (msg : List Nat) (h : ∀ b ∈ msg, b < 256) :
    (message_to_bits msg).length = 8 * msg.length + 8 := by
  simp [message_to_bits, flatMap_format08b_length msg h]

/-- **C4 (amended)** Synonym round-trip: for every payload of nonzero bytes and
every cover text whose words are each either a *reliable* function word (its
two encoding alternatives decode back to bits 0 and 1 — this excludes `were`,
`should` and `can`) or a neutral word contributing no bit on extraction, and
which contains at least `len(payload)*8 + 8` function-word occurrences,
extraction recovers the payload. -/
theorem synonym_round_trip (cover : List Char) (msg : List Nat)
    (hm : ∀ b ∈ msg, 0 < b ∧ b < 256)
    (hw : ∀ w ∈ py_split cover, goodKeyWord (cleanWord w) = true ∨
      neutralWord (cleanWord w) = true)
    (hcount : 8 * msg.length + 8 ≤ ((py_split cover).filter
      (fun w => (synTable.lookup (cleanWord w)).isSome)).length) :
    extract_synonym (embed_synonym cover msg) = msg := by
  have hws : ∀ w ∈ py_split cover, w ≠ [] ∧ (∀ c ∈ w, pyWS c = false) ∧
      (goodKeyWord (cleanWord w) = true ∨ neutralWord (cleanWord w) = true) :=
    fun w hwm => ⟨(py_split_clean cover w hwm).1, (py_split_clean cover w hwm).2,
      hw w hwm⟩
  have hcount' : (message_to_bits msg).length ≤ ((py_split cover).filter
      (fun w => (synTable.lookup (cleanWord w)).isSome)).length := by
    rw [length_message_to_bits msg (fun b hb => (hm b hb).2)]
    exact hcount
  obtain ⟨h2, h3, junk, h4⟩ :=
    embSynWords_spec (py_split cover) (message_to_bits msg) hws hcount'
  simp only [embed_synonym, extract_synonym, syn_bits]
  rw [h2]
  rw [show (([] : List Bool).map dummySyn) = [] from rfl, List.append_nil]
  rw [py_split_joinSpace _ h3, h4]
  rw [show message_to_bits msg ++ junk =
    msg.flatMap format08b ++ (List.replicate 8 false ++ junk) from by
      simp [message_to_bits]]
  exact decode_flatMap msg _ hm

set_option maxRecDepth 40000 in
/-- Witness for the amended C4: sixteen occurrences of `the` carry the byte
0x41 and the terminator. -/
theorem synonym_round_trip_witness :
    extract_synonym (embed_synonym
      (chars "the the the the the the the the the the the the the the the the")
      [65]) = [65] :=
  synonym_round_trip _ [65] (by decide) (by decide) (by decide)

set_option maxRecDepth 40000 in
/-- Counterexample to C4 as stated: the cover `were the the the the the the
the` has 8 case-insensitive function-word occurrences — enough for the empty
payload (which has no NUL byte and no dummy-word ambiguity) — yet the
round-trip fails, because extraction maps the emitted word `were` to bit 1
via the earlier table entry for `was`. -/
theorem synonym_round_trip_cex :
    8 * ([] : List Nat).length + 8 ≤
      ((py_split (chars "were the the the the the the the")).filter
        (fun w => (synTable.lookup (cleanWord w)).isSome)).length ∧
    extract_synonym (embed_synonym
      (chars "were the the the the the the the") []) ≠ [] := by
  refine ⟨by decide, by decide⟩

end TextStego
